import Mathlib

/-!
Verification of the `buptAsgmt-python` repository against its specification.

The development shallowly embeds the two components the claims are about:

* `src/asgmt1/main.py` — the "压手指" (finger-pressing) guessing game:
  the fixed finger set and beats-relation, the outcome judge, the
  statistics tracker, the opponent predictor, and the session loop.
  Randomness (`random.random() < p` and `random.choice(seq)`) is embedded
  by passing the branch decision as an explicit `Bool` and the uniform
  choice as an explicit index into the candidate list: a uniform index
  into a duplicate-free list is a uniform draw from its elements.

* `src/asgmt2/main.py` — word-count functions.  Python `dict`s are
  embedded as association lists (`List (String × Nat)`) read through
  first-match lookup, which matches `dict.get(key, default)`.
-/

namespace Asgmt1

/-- Finger labels, `Finger = str` in the source. -/
abbrev Finger := String

/-- `FingerGame.available_fingers` (src/asgmt1/main.py lines 22-28). -/
def available_fingers : List Finger :=
  ["拇指", "食指", "中指", "无名指", "小指"]

/-- `FingerGame.win_lose_pairs` (src/asgmt1/main.py lines 29-35):
the (winner, loser) pairs of the beats-relation. -/
def win_lose_pairs : List (Finger × Finger) :=
  [("拇指", "食指"),
   ("食指", "中指"),
   ("中指", "无名指"),
   ("无名指", "小指"),
   ("小指", "拇指")]

/-- The exit token `self.exit_str` (line 21). -/
def exit_str : String := "exit"

/-- `FingerGame.__get_winning_finger` (lines 89-99): scan `win_lose_pairs`
for the first pair whose loser is `predicted_finger` and return its
winner; the trailing `assert False` is embedded as `none`. -/
def get_winning_finger (predicted_finger : Finger) : Option Finger :=
  (win_lose_pairs.find? (fun p => p.2 == predicted_finger)).map Prod.fst

/-- Round outcome as printed/recorded by `FingerGame.__judge`. -/
inductive Outcome where
  | win : Outcome
  | lose : Outcome
  | draw : Outcome
deriving DecidableEq, Repr

/-- The classification performed by `FingerGame.__judge` (lines 101-129):
win if `(user, computer)` is a beats-pair, else lose if `(computer, user)`
is, else draw. -/
def judge (user_choice computer_choice : Finger) : Outcome :=
  if (user_choice, computer_choice) ∈ win_lose_pairs then Outcome.win
  else if (computer_choice, user_choice) ∈ win_lose_pairs then Outcome.lose
  else Outcome.draw

end Asgmt1

namespace Asgmt1

/-- C1 -- The judge classifies win exactly on beats-pairs `(user, computer)`
and lose exactly on beats-pairs `(computer, user)`, but the claim that a
draw classification implies equal fingers is FALSE: the beats-relation is a
5-cycle, not a tournament, so distinct fingers two steps apart in the cycle
also draw.  Concrete counterexample: user 拇指 versus computer 中指 is
classified draw although the fingers differ. -/
theorem judge_draw_not_equal :
    judge "拇指" "中指" = Outcome.draw ∧ ("拇指" : Finger) ≠ "中指" := by
  decide

/-- C1 (amended) -- For fingers `u`, `c` of the 5-finger set, the judge
returns win iff `(u, c)` is in the beats-relation, lose iff `(c, u)` is in
the beats-relation, and draw iff neither ordered pair is in the relation;
equal fingers always draw, but a draw does not imply the fingers are equal. -/
theorem judge_characterization (u c : Finger)
    (hu : u ∈ available_fingers) (hc : c ∈ available_fingers) :
    (judge u c = Outcome.win ↔ (u, c) ∈ win_lose_pairs) ∧
    (judge u c = Outcome.lose ↔ (c, u) ∈ win_lose_pairs) ∧
    (judge u c = Outcome.draw ↔
      ((u, c) ∉ win_lose_pairs ∧ (c, u) ∉ win_lose_pairs)) ∧
    (u = c → judge u c = Outcome.draw) := by
  fin_cases hu <;> fin_cases hc <;> decide

/-- C1 witness: the amended characterization at user 拇指, computer 食指. -/
theorem judge_characterization_witness :
    ("拇指" : Finger) ∈ available_fingers ∧
    ("食指" : Finger) ∈ available_fingers ∧
    (judge "拇指" "食指" = Outcome.win ↔ ("拇指", "食指") ∈ win_lose_pairs) := by
  refine ⟨by decide, by decide, ?_⟩
  exact (judge_characterization "拇指" "食指" (by decide) (by decide)).1

/-- C2 -- For every finger of the 5-finger set, the scan of the
beats-relation for the pair losing to it succeeds, so the `assert False`
at the end of `__get_winning_finger` is unreachable on the 5 fingers. -/
theorem get_winning_finger_total (f : Finger) (hf : f ∈ available_fingers) :
    (get_winning_finger f).isSome = true := by
  fin_cases hf <;> decide

/-- C2 witness: the lookup succeeds at the concrete finger 拇指. -/
theorem get_winning_finger_total_witness :
    ("拇指" : Finger) ∈ available_fingers ∧
    (get_winning_finger "拇指").isSome = true :=
  ⟨by decide, get_winning_finger_total "拇指" (by decide)⟩

/-- C4 -- In the fixed beats-relation, every finger of the 5-finger set
appears exactly once as the winner of a pair and exactly once as the
loser of a pair: the relation is a directed 5-cycle. -/
theorem win_lose_pairs_cycle (f : Finger) (hf : f ∈ available_fingers) :
    (win_lose_pairs.filter (fun p => p.1 == f)).length = 1 ∧
    (win_lose_pairs.filter (fun p => p.2 == f)).length = 1 := by
  fin_cases hf <;> decide

/-- C4 witness: the cycle property at the concrete finger 小指. -/
theorem win_lose_pairs_cycle_witness :
    ("小指" : Finger) ∈ available_fingers ∧
    (win_lose_pairs.filter (fun p => p.1 == "小指")).length = 1 ∧
    (win_lose_pairs.filter (fun p => p.2 == "小指")).length = 1 :=
  ⟨by decide, win_lose_pairs_cycle "小指" (by decide)⟩

/-- `FingerGame.Statistics` (lines 131-175).  The dict
`user_finger_after_winning` is embedded as a total function on `Finger`;
its sums are taken over `available_fingers`, the dict's key set. -/
structure Statistics where
  total_turn : Nat
  win_turn : Nat
  lose_turn : Nat
  draw_turn : Nat
  user_finger_after_winning : Finger → Nat
  last_user_finger : Option Finger
  last_user_win : Bool

/-- `Statistics.__init__` (lines 136-150): all counters zero, the
after-winning dict zero at every finger, no last finger, flag false. -/
def initStats : Statistics :=
  { total_turn := 0
    win_turn := 0
    lose_turn := 0
    draw_turn := 0
    user_finger_after_winning := fun _ => 0
    last_user_finger := none
    last_user_win := false }

/-- The after-winning dict update inside `update_stats` (lines 172-173):
increment at `user_finger` only when the pre-update `last_user_win` flag
is set. -/
def bumpAfterWinning (s : Statistics) (user_finger : Finger) : Finger → Nat :=
  fun f =>
    if s.last_user_win ∧ f = user_finger then
      s.user_finger_after_winning f + 1
    else s.user_finger_after_winning f

/-- `Statistics.update_stats` (lines 152-175): increment `total_turn`,
then exactly one outcome counter following the `if draw / elif win /
elif lose` chain — the final `assert False` branch is embedded as `none`;
then bump the after-winning dict using the pre-update win flag, and
overwrite `last_user_finger` and `last_user_win` with the round's values. -/
def update_stats (s : Statistics) (user_finger : Finger)
    (win draw lose : Bool) : Option Statistics :=
  if draw then
    some { total_turn := s.total_turn + 1
           win_turn := s.win_turn
           lose_turn := s.lose_turn
           draw_turn := s.draw_turn + 1
           user_finger_after_winning := bumpAfterWinning s user_finger
           last_user_finger := some user_finger
           last_user_win := win }
  else if win then
    some { total_turn := s.total_turn + 1
           win_turn := s.win_turn + 1
           lose_turn := s.lose_turn
           draw_turn := s.draw_turn
           user_finger_after_winning := bumpAfterWinning s user_finger
           last_user_finger := some user_finger
           last_user_win := win }
  else if lose then
    some { total_turn := s.total_turn + 1
           win_turn := s.win_turn
           lose_turn := s.lose_turn + 1
           draw_turn := s.draw_turn
           user_finger_after_winning := bumpAfterWinning s user_finger
           last_user_finger := some user_finger
           last_user_win := win }
  else none

/-- Sum of the after-winning dict values over the dict's key set. -/
def afterWinningSum (s : Statistics) : Nat :=
  (available_fingers.map s.user_finger_after_winning).sum

/-- Statistics states reachable from the initial state by `n` successful
`update_stats` calls, each with exactly one of win/draw/lose true. -/
inductive ReachableN : Nat → Statistics → Prop where
  | init : ReachableN 0 initStats
  | step {n : Nat} {s s' : Statistics} {f : Finger} {w d l : Bool} :
      ReachableN n s →
      w.toNat + d.toNat + l.toNat = 1 →
      update_stats s f w d l = some s' →
      ReachableN (n + 1) s'

lemma sum_map_if_le (g : Finger → Nat) (x : Finger)
    (l : List Finger) (hl : l.Nodup) :
    (l.map (fun f => if f = x then g f + 1 else g f)).sum ≤
      (l.map g).sum + 1 := by
  induction l with
  | nil => simp
  | cons y ys ih =>
      rcases List.nodup_cons.mp hl with ⟨hy, hys⟩
      by_cases hyx : y = x
      · subst hyx
        have htail : ys.map (fun f => if f = y then g f + 1 else g f)
            = ys.map g := by
          apply List.map_congr_left
          intro f hf
          have hfy : f ≠ y := fun h => hy (h ▸ hf)
          simp [hfy]
        simp [htail]
        omega
      · have ihle := ih hys
        simp only [List.map_cons, List.sum_cons, if_neg hyx]
        omega

lemma afterWinningSum_bump_le (s : Statistics) (f : Finger) :
    (available_fingers.map (bumpAfterWinning s f)).sum ≤
      afterWinningSum s + s.last_user_win.toNat := by
  cases hw : s.last_user_win
  · have hb : bumpAfterWinning s f = s.user_finger_after_winning := by
      funext f'
      simp [bumpAfterWinning, hw]
    simp [hb, afterWinningSum]
  · have hb : bumpAfterWinning s f = fun f' =>
        if f' = f then s.user_finger_after_winning f' + 1
        else s.user_finger_after_winning f' := by
      funext f'
      simp [bumpAfterWinning, hw]
    rw [hb]
    simpa [afterWinningSum] using
      sum_map_if_le s.user_finger_after_winning f available_fingers (by decide)

/-- Combined inductive invariant on reachable statistics. -/
lemma reachable_invariant {n : Nat} {s : Statistics} (h : ReachableN n s) :
    s.total_turn = n ∧
    s.total_turn = s.win_turn + s.lose_turn + s.draw_turn ∧
    afterWinningSum s + s.last_user_win.toNat ≤ s.win_turn := by
  induction h with
  | init => simp [initStats, afterWinningSum, available_fingers]
  | @step n s s' f w d l _ hone hupd ih =>
      rcases ih with ⟨htot, hsum, hwin⟩
      have hbump := afterWinningSum_bump_le s f
      have hcases : (w = true ∧ d = false ∧ l = false) ∨
          (w = false ∧ d = true ∧ l = false) ∨
          (w = false ∧ d = false ∧ l = true) := by
        cases w <;> cases d <;> cases l <;> simp_all
      have h1 : Bool.toNat true = 1 := rfl
      have h0 : Bool.toNat false = 0 := rfl
      rcases hcases with ⟨rfl, rfl, rfl⟩ | ⟨rfl, rfl, rfl⟩ | ⟨rfl, rfl, rfl⟩
      · -- win round
        simp [update_stats] at hupd
        subst hupd
        refine ⟨?_, ?_, ?_⟩
        · show s.total_turn + 1 = n + 1
          omega
        · show s.total_turn + 1 = (s.win_turn + 1) + s.lose_turn + s.draw_turn
          omega
        · show (available_fingers.map (bumpAfterWinning s f)).sum
            + Bool.toNat true ≤ s.win_turn + 1
          omega
      · -- draw round
        simp [update_stats] at hupd
        subst hupd
        refine ⟨?_, ?_, ?_⟩
        · show s.total_turn + 1 = n + 1
          omega
        · show s.total_turn + 1 = s.win_turn + s.lose_turn + (s.draw_turn + 1)
          omega
        · show (available_fingers.map (bumpAfterWinning s f)).sum
            + Bool.toNat false ≤ s.win_turn
          omega
      · -- lose round
        simp [update_stats] at hupd
        subst hupd
        refine ⟨?_, ?_, ?_⟩
        · show s.total_turn + 1 = n + 1
          omega
        · show s.total_turn + 1 = s.win_turn + (s.lose_turn + 1) + s.draw_turn
          omega
        · show (available_fingers.map (bumpAfterWinning s f)).sum
            + Bool.toNat false ≤ s.win_turn
          omega

/-- C3 -- Every Statistics state reachable from the initial all-zero state
by `n` `update_stats` calls, each with exactly one of win/draw/lose true,
satisfies `total_turn = win_turn + lose_turn + draw_turn`, and after `n`
completed rounds `total_turn = n`. -/
theorem total_turn_invariant {n : Nat} {s : Statistics}
    (h : ReachableN n s) :
    s.total_turn = n ∧
    s.total_turn = s.win_turn + s.lose_turn + s.draw_turn :=
  ⟨(reachable_invariant h).1, (reachable_invariant h).2.1⟩

/-- C3 witness: the invariant at the initial state. -/
theorem total_turn_invariant_witness :
    initStats.total_turn = 0 ∧
    initStats.total_turn =
      initStats.win_turn + initStats.lose_turn + initStats.draw_turn :=
  total_turn_invariant ReachableN.init

/-- C7 -- On every reachable Statistics state, the sum over the 5 fingers
of the after-winning counts is at most `win_turn`: `update_stats`
increments the dict only when the pre-update `last_user_win` flag is true,
reading it before overwriting it with the current round's outcome. -/
theorem after_winning_sum_le_win_turn {n : Nat} {s : Statistics}
    (h : ReachableN n s) :
    afterWinningSum s ≤ s.win_turn := by
  have := (reachable_invariant h).2.2
  omega

/-- C7 witness: the bound at the initial state. -/
theorem after_winning_sum_le_win_turn_witness :
    afterWinningSum initStats ≤ initStats.win_turn :=
  after_winning_sum_le_win_turn ReachableN.init

/-- `random.choice(seq)` embedded with an explicit uniform index `i`:
the element at position `i % len(seq)`.  A uniform `i` yields a uniform
element of a duplicate-free list. -/
def choiceAt (l : List Finger) (i : Nat) : Finger :=
  l.getD (i % l.length) ""

/-- The `remaining_fingers` comprehension of the non-win branch
(lines 76-80): the available fingers different from
`last_user_finger`; when the latter is `None`, every finger differs
from it, so the list is all of `available_fingers`. -/
def remainingFingers (last : Option Finger) : List Finger :=
  available_fingers.filter (fun finger => some finger != last)

/-- A stable insertion step for descending sort by count: the new element
goes before the first strictly-smaller element, i.e. after every element
of equal or larger count already placed. -/
def insertByCountDesc (cnt : Finger → Nat) : List Finger → Finger → List Finger
  | [], x => [x]
  | y :: ys, x =>
      if cnt y < cnt x then x :: y :: ys
      else y :: insertByCountDesc cnt ys x

/-- Stable descending sort by count.  This embeds
`sorted(d, key=d.get, reverse=True)` of line 63-67: Python's sort is
stable, so any stable descending sort by the same key produces the same
list; insertion in source order is such a sort. -/
def sortByCountDesc (cnt : Finger → Nat) (l : List Finger) : List Finger :=
  l.foldl (insertByCountDesc cnt) []

/-- `predicted_fingers` of the win branch (lines 63-67): the first two
fingers of the stable descending sort of the after-winning dict keys by
their counts. -/
def predictedFingers (s : Statistics) : List Finger :=
  (sortByCountDesc s.user_finger_after_winning available_fingers).take 2

/-- `FingerGame.__get_computer_choice` (lines 54-87).  `mainBranch`
embeds the outcome of `random.random() < 0.8` (win branch) or
`random.random() < 0.75` (non-win branch); `pick` embeds the uniform
`random.choice` index. -/
def get_computer_choice (s : Statistics) (mainBranch : Bool) (pick : Nat) :
    Option Finger :=
  if s.last_user_win then
    if mainBranch then
      get_winning_finger (choiceAt (predictedFingers s) pick)
    else some (choiceAt available_fingers pick)
  else
    if mainBranch then
      get_winning_finger (choiceAt (remainingFingers s.last_user_finger) pick)
    else some (choiceAt available_fingers pick)

lemma choiceAt_mem (l : List Finger) (hl : l ≠ []) (i : Nat) :
    choiceAt l i ∈ l := by
  have hlen : 0 < l.length := List.length_pos.mpr hl
  have hmod : i % l.length < l.length := Nat.mod_lt _ hlen
  rw [choiceAt, List.getD_eq_getElem l "" hmod]
  exact List.getElem_mem hmod

lemma insertByCountDesc_perm (cnt : Finger → Nat) (l : List Finger)
    (x : Finger) : List.Perm (insertByCountDesc cnt l x) (x :: l) := by
  induction l with
  | nil => exact List.Perm.refl _
  | cons y ys ih =>
      rw [insertByCountDesc]
      by_cases hc : cnt y < cnt x
      · rw [if_pos hc]
      · rw [if_neg hc]
        exact List.Perm.trans (ih.cons y) (List.Perm.swap x y ys)

lemma sortByCountDesc_perm_aux (cnt : Finger → Nat) (l : List Finger) :
    ∀ acc : List Finger,
      List.Perm (l.foldl (insertByCountDesc cnt) acc) (acc ++ l) := by
  induction l with
  | nil => intro acc; simp
  | cons x xs ih =>
      intro acc
      have h1 : List.Perm (xs.foldl (insertByCountDesc cnt)
          (insertByCountDesc cnt acc x)) (insertByCountDesc cnt acc x ++ xs) :=
        ih _
      have h2 : List.Perm (insertByCountDesc cnt acc x ++ xs)
          ((x :: acc) ++ xs) :=
        (insertByCountDesc_perm cnt acc x).append_right xs
      have h3 : List.Perm ((x :: acc) ++ xs) (acc ++ x :: xs) :=
        List.perm_middle.symm
      exact ((h1.trans h2).trans h3)

lemma sortByCountDesc_perm (cnt : Finger → Nat) (l : List Finger) :
    List.Perm (sortByCountDesc cnt l) l := by
  simpa using sortByCountDesc_perm_aux cnt l []

lemma insertByCountDesc_pairwise (cnt : Finger → Nat) (l : List Finger)
    (x : Finger) (hl : l.Pairwise (fun a b => cnt b ≤ cnt a)) :
    (insertByCountDesc cnt l x).Pairwise (fun a b => cnt b ≤ cnt a) := by
  induction l with
  | nil => simp [insertByCountDesc]
  | cons y ys ih =>
      rcases List.pairwise_cons.mp hl with ⟨hy, hys⟩
      rw [insertByCountDesc]
      by_cases hc : cnt y < cnt x
      · rw [if_pos hc]
        refine List.pairwise_cons.mpr ⟨?_, hl⟩
        intro z hz
        rcases List.mem_cons.mp hz with rfl | hz'
        · exact le_of_lt hc
        · exact le_trans (hy z hz') (le_of_lt hc)
      · rw [if_neg hc]
        refine List.pairwise_cons.mpr ⟨?_, ih hys⟩
        intro z hz
        have hz' := (insertByCountDesc_perm cnt ys x).mem_iff.mp hz
        rcases List.mem_cons.mp hz' with rfl | hz''
        · exact Nat.le_of_not_lt hc
        · exact hy z hz''

lemma sortByCountDesc_pairwise_aux (cnt : Finger → Nat) (l acc : List Finger)
    (hacc : acc.Pairwise (fun a b => cnt b ≤ cnt a)) :
    (l.foldl (insertByCountDesc cnt) acc).Pairwise
      (fun a b => cnt b ≤ cnt a) := by
  induction l generalizing acc with
  | nil => simpa using hacc
  | cons x xs ih =>
      exact ih (insertByCountDesc cnt acc x)
        (insertByCountDesc_pairwise cnt acc x hacc)

lemma sortByCountDesc_pairwise (cnt : Finger → Nat) (l : List Finger) :
    (sortByCountDesc cnt l).Pairwise (fun a b => cnt b ≤ cnt a) :=
  sortByCountDesc_pairwise_aux cnt l [] (List.Pairwise.nil)

lemma take_two_top (cnt : Finger → Nat) (l : List Finger) (g p : Finger)
    (hg : g ∈ l) (hgn : g ∉ (sortByCountDesc cnt l).take 2)
    (hp : p ∈ (sortByCountDesc cnt l).take 2) :
    cnt g ≤ cnt p := by
  have hperm := sortByCountDesc_perm cnt l
  have hpair := sortByCountDesc_pairwise cnt l
  have hgsl : g ∈ sortByCountDesc cnt l := hperm.mem_iff.mpr hg
  have hsplit := (List.take_append_drop 2 (sortByCountDesc cnt l)).symm
  rw [hsplit] at hpair hgsl
  have hgdrop : g ∈ (sortByCountDesc cnt l).drop 2 := by
    rcases List.mem_append.mp hgsl with h2 | h2
    · exact absurd h2 hgn
    · exact h2
  exact (List.pairwise_append.mp hpair).2.2 p hp g hgdrop

lemma get_winning_finger_beats (f : Finger) (hf : f ∈ available_fingers) :
    ∃ w, get_winning_finger f = some w ∧ (w, f) ∈ win_lose_pairs := by
  fin_cases hf
  · exact ⟨"小指", by decide, by decide⟩
  · exact ⟨"拇指", by decide, by decide⟩
  · exact ⟨"食指", by decide, by decide⟩
  · exact ⟨"中指", by decide, by decide⟩
  · exact ⟨"无名指", by decide, by decide⟩

/-- C5 -- In the non-win branch of the predictor (previous round not a
user win, including the very first round), the 0.75 branch draws its
prediction from `remainingFingers`, the duplicate-free list of exactly
the fingers different from the user's last-played finger — all 5 fingers
when no finger was played yet — and answers with the finger that beats
the drawn prediction; the 0.25 branch draws from all 5 fingers.
A uniform choice index over a duplicate-free candidate list is a uniform
draw from its elements. -/
theorem predictor_no_win_branch (s : Statistics)
    (h : s.last_user_win = false) (i : Nat) :
    (s.last_user_finger = none →
      remainingFingers s.last_user_finger = available_fingers) ∧
    (∀ lf f, s.last_user_finger = some lf →
      (f ∈ remainingFingers s.last_user_finger ↔
        f ∈ available_fingers ∧ f ≠ lf)) ∧
    (remainingFingers s.last_user_finger).Nodup ∧
    (∃ w, get_winning_finger
        (choiceAt (remainingFingers s.last_user_finger) i) = some w ∧
      (w, choiceAt (remainingFingers s.last_user_finger) i) ∈ win_lose_pairs ∧
      get_computer_choice s true i = some w) ∧
    get_computer_choice s false i = some (choiceAt available_fingers i) := by
  have hnodup : (remainingFingers s.last_user_finger).Nodup :=
    List.Nodup.filter _ (by decide)
  have hne : remainingFingers s.last_user_finger ≠ [] := by
    cases hl : s.last_user_finger with
    | none => decide
    | some lf =>
        by_cases hlf : lf = "拇指"
        · subst hlf
          decide
        · have hm : ("拇指" : Finger) ∈ remainingFingers (some lf) := by
            apply List.mem_filter.mpr
            refine ⟨by decide, ?_⟩
            simp only [bne_iff_ne, ne_eq, Option.some.injEq]
            exact fun hcontra => hlf hcontra.symm
          exact List.ne_nil_of_mem hm
  have hca : choiceAt (remainingFingers s.last_user_finger) i ∈
      available_fingers :=
    (List.mem_filter.mp (choiceAt_mem _ hne i)).1
  obtain ⟨w, hw1, hw2⟩ := get_winning_finger_beats _ hca
  refine ⟨?_, ?_, hnodup, ⟨w, hw1, hw2, ?_⟩, ?_⟩
  · intro hn
    rw [hn]
    decide
  · intro lf f hlf
    rw [hlf]
    simp [remainingFingers, List.mem_filter]
  · simp [get_computer_choice, h, hw1]
  · simp [get_computer_choice, h]

/-- C5 witness: the non-win branch at the initial state with choice
index 0: the candidate list is all 5 fingers and the answer beats the
drawn prediction. -/
theorem predictor_no_win_branch_witness :
    initStats.last_user_win = false ∧
    remainingFingers initStats.last_user_finger = available_fingers ∧
    ∃ w, get_computer_choice initStats true 0 = some w ∧
      (w, choiceAt (remainingFingers initStats.last_user_finger) 0) ∈
        win_lose_pairs := by
  refine ⟨rfl, (predictor_no_win_branch initStats rfl 0).1 rfl, ?_⟩
  obtain ⟨w, _, hw2, hw3⟩ :=
    (predictor_no_win_branch initStats rfl 0).2.2.2.1
  exact ⟨w, hw3, hw2⟩

/-- C6 -- In the win branch of the predictor (previous round a user win),
the 0.8 branch draws uniformly between the first two fingers of the
stable descending sort of the after-winning counts — two fingers whose
counts are at least every unselected finger's count — and answers with
the finger that beats the drawn prediction; the 0.2 branch draws from
all 5 fingers. -/
theorem predictor_win_branch (s : Statistics)
    (h : s.last_user_win = true) (i : Nat) :
    (predictedFingers s).length = 2 ∧
    (predictedFingers s).Nodup ∧
    (∀ p ∈ predictedFingers s, p ∈ available_fingers) ∧
    (∀ g ∈ available_fingers, g ∉ predictedFingers s →
      ∀ p ∈ predictedFingers s,
        s.user_finger_after_winning g ≤ s.user_finger_after_winning p) ∧
    (∃ w, get_winning_finger (choiceAt (predictedFingers s) i) = some w ∧
      (w, choiceAt (predictedFingers s) i) ∈ win_lose_pairs ∧
      get_computer_choice s true i = some w) ∧
    get_computer_choice s false i = some (choiceAt available_fingers i) := by
  have hperm := sortByCountDesc_perm s.user_finger_after_winning
    available_fingers
  have hlen5 : (sortByCountDesc s.user_finger_after_winning
      available_fingers).length = 5 := by
    rw [hperm.length_eq]
    decide
  have hlen : (predictedFingers s).length = 2 := by
    rw [predictedFingers, List.length_take, hlen5]
    decide
  have hnodup : (predictedFingers s).Nodup :=
    (hperm.nodup_iff.mpr (by decide)).sublist (List.take_sublist 2 _)
  have hsubset : ∀ p ∈ predictedFingers s, p ∈ available_fingers := by
    intro p hp
    exact hperm.mem_iff.mp (List.mem_of_mem_take hp)
  have htop : ∀ g ∈ available_fingers, g ∉ predictedFingers s →
      ∀ p ∈ predictedFingers s,
        s.user_finger_after_winning g ≤ s.user_finger_after_winning p :=
    fun g hg hgn p hp =>
      take_two_top s.user_finger_after_winning available_fingers g p hg hgn hp
  have hne : predictedFingers s ≠ [] := by
    intro hc
    rw [hc] at hlen
    exact absurd hlen (by decide)
  have hca := hsubset _ (choiceAt_mem _ hne i)
  obtain ⟨w, hw1, hw2⟩ := get_winning_finger_beats _ hca
  refine ⟨hlen, hnodup, hsubset, htop, ⟨w, hw1, hw2, ?_⟩, ?_⟩
  · simp [get_computer_choice, h, hw1]
  · simp [get_computer_choice, h]

/-- A concrete post-win state: one round played and won with 拇指. -/
def winStateExample : Statistics :=
  { total_turn := 1
    win_turn := 1
    lose_turn := 0
    draw_turn := 0
    user_finger_after_winning := fun _ => 0
    last_user_finger := some "拇指"
    last_user_win := true }

/-- C6 witness: the win branch at a concrete post-win state with choice
index 0: two predicted fingers and an answer that beats the drawn one. -/
theorem predictor_win_branch_witness :
    winStateExample.last_user_win = true ∧
    (predictedFingers winStateExample).length = 2 ∧
    ∃ w, get_computer_choice winStateExample true 0 = some w ∧
      (w, choiceAt (predictedFingers winStateExample) 0) ∈ win_lose_pairs := by
  refine ⟨rfl, (predictor_win_branch winStateExample rfl 0).1, ?_⟩
  obtain ⟨w, _, hw2, hw3⟩ :=
    (predictor_win_branch winStateExample rfl 0).2.2.2.2.1
  exact ⟨w, hw3, hw2⟩

/-- One judged round, `FingerGame.__judge` (lines 101-129): classify the
pair and call `update_stats` with the matching win/draw/lose flags. -/
def judgeRound (s : Statistics) (user_choice computer_choice : Finger) :
    Option Statistics :=
  if (user_choice, computer_choice) ∈ win_lose_pairs then
    update_stats s user_choice true false false
  else if (computer_choice, user_choice) ∈ win_lose_pairs then
    update_stats s user_choice false false true
  else
    update_stats s user_choice false true false

/-- The session loop `FingerGame.start` (lines 191-202) over a list of
iterations, each a validated user input (a finger label or the exit
token, as `__get_input` guarantees) together with the round's random
branch decision and choice index.  The exit token returns the current
statistics at once; internal faults (embedded as `none`) halt with the
current statistics. -/
def runSession (s : Statistics) :
    List (String × Bool × Nat) → Statistics
  | [] => s
  | (user_input, coin, pick) :: rest =>
      if user_input = exit_str then s
      else
        match get_computer_choice s coin pick with
        | none => s
        | some c =>
            match judgeRound s user_input c with
            | none => s
            | some s' => runSession s' rest

/-- C8 -- When the validated user input of an iteration is the exit
token, the session loop returns at once: the remaining iterations are
never processed, no predictor or judge runs, and the statistics of that
final iteration are returned unchanged. -/
theorem session_exit_frame (s : Statistics) (user_input : String)
    (coin : Bool) (pick : Nat) (rest : List (String × Bool × Nat))
    (h : user_input = exit_str) :
    runSession s ((user_input, coin, pick) :: rest) = s := by
  simp [runSession, h]

/-- C8 witness: an exit input at the initial state with further
iterations pending leaves the statistics unchanged. -/
theorem session_exit_frame_witness :
    runSession initStats [("exit", true, 0), ("拇指", true, 1)] = initStats :=
  session_exit_frame initStats "exit" true 0 [("拇指", true, 1)] rfl

end Asgmt1

namespace Asgmt2

/-- `dict.get(key, 0)` on an association-list embedding of a Python
dict: the value of the first binding of `k`, defaulting to 0. -/
def dictGet (d : List (String × Nat)) (k : String) : Nat :=
  (d.lookup k).getD 0

/-- The key list of a dict. -/
def dictKeys (d : List (String × Nat)) : List String :=
  d.map Prod.fst

/-- `merge_word_counts` (src/asgmt2/main.py lines 41-54): one entry per
key of `set(dict1) | set(dict2)`, valued `dict1.get(key, 0) +
dict2.get(key, 0)`.  The set union is embedded as the deduplicated
concatenation of the key lists; Python set iteration order is
unspecified, so the result is compared as a mapping. -/
def merge_word_counts (d1 d2 : List (String × Nat)) : List (String × Nat) :=
  ((dictKeys d1 ++ dictKeys d2).dedup).map
    (fun key => (key, dictGet d1 key + dictGet d2 key))

/-- Splitting helper: cut the character list at every whitespace
character, accumulating the current piece in reverse. -/
def splitWsAux : List Char → List Char → List (List Char)
  | [], acc => [acc.reverse]
  | c :: cs, acc =>
      if c.isWhitespace then acc.reverse :: splitWsAux cs []
      else splitWsAux cs (c :: acc)

/-- Python `str.split()` with no separator: split on whitespace and drop
the empty pieces produced by leading, trailing or repeated whitespace. -/
def pySplit (text : String) : List String :=
  ((splitWsAux text.data []).filter (fun w => w ≠ [])).map List.asString

/-- `count_word_occurrences` (lines 27-38): the dict comprehension
`{word: words.count(word) for word in words}` — one entry per distinct
word in first-occurrence order, valued by its count among the words. -/
def count_word_occurrences (text : String) : List (String × Nat) :=
  let words := pySplit text
  words.dedup.map (fun word => (word, words.count word))

lemma lookup_map_self (f : String → Nat) (ks : List String) (k : String)
    (hk : k ∈ ks) :
    (ks.map (fun x => (x, f x))).lookup k = some (f k) := by
  induction ks with
  | nil => cases hk
  | cons x xs ih =>
      by_cases hkx : k = x
      · subst hkx
        simp [List.lookup]
      · have hk' : k ∈ xs := by
          rcases List.mem_cons.mp hk with h | h
          · exact absurd h hkx
          · exact h
        have hbeq : (k == x) = false := beq_eq_false_iff_ne.mpr hkx
        simp [List.lookup, hbeq, ih hk']

lemma lookup_map_not_mem (f : String → Nat) (ks : List String) (k : String)
    (hk : k ∉ ks) :
    (ks.map (fun x => (x, f x))).lookup k = none := by
  induction ks with
  | nil => rfl
  | cons x xs ih =>
      have hkx : k ≠ x := fun h => hk (h ▸ List.mem_cons_self x xs)
      have hk' : k ∉ xs := fun h => hk (List.mem_cons_of_mem x h)
      have hbeq : (k == x) = false := beq_eq_false_iff_ne.mpr hkx
      simp [List.lookup, hbeq, ih hk']

lemma dictKeys_merge (d1 d2 : List (String × Nat)) :
    dictKeys (merge_word_counts d1 d2) = (dictKeys d1 ++ dictKeys d2).dedup := by
  rw [merge_word_counts, dictKeys, List.map_map]
  exact List.map_id _

lemma dictGet_merge (d1 d2 : List (String × Nat)) (k : String) :
    dictGet (merge_word_counts d1 d2) k =
      if k ∈ dictKeys d1 ∨ k ∈ dictKeys d2 then
        dictGet d1 k + dictGet d2 k
      else 0 := by
  by_cases hk : k ∈ dictKeys d1 ∨ k ∈ dictKeys d2
  · have hk' : k ∈ (dictKeys d1 ++ dictKeys d2).dedup := by
      rw [List.mem_dedup, List.mem_append]
      exact hk
    rw [if_pos hk]
    rw [merge_word_counts, dictGet,
      lookup_map_self (fun key => dictGet d1 key + dictGet d2 key) _ k hk']
    rfl
  · have hk' : k ∉ (dictKeys d1 ++ dictKeys d2).dedup := by
      rw [List.mem_dedup, List.mem_append]
      exact hk
    rw [if_neg hk]
    rw [merge_word_counts, dictGet,
      lookup_map_not_mem (fun key => dictGet d1 key + dictGet d2 key) _ k hk']
    rfl

/-- C9 -- `merge_word_counts` is commutative as a mapping: swapping the
two dicts yields the same key set — the union of the two key sets — and
the same summed value at every key. -/
theorem merge_word_counts_comm (d1 d2 : List (String × Nat)) :
    (∀ k, k ∈ dictKeys (merge_word_counts d1 d2) ↔
      (k ∈ dictKeys d1 ∨ k ∈ dictKeys d2)) ∧
    (∀ k, k ∈ dictKeys (merge_word_counts d1 d2) ↔
      k ∈ dictKeys (merge_word_counts d2 d1)) ∧
    (∀ k, dictGet (merge_word_counts d1 d2) k =
      dictGet (merge_word_counts d2 d1) k) := by
  refine ⟨?_, ?_, ?_⟩
  · intro k
    rw [dictKeys_merge, List.mem_dedup, List.mem_append]
  · intro k
    rw [dictKeys_merge, dictKeys_merge, List.mem_dedup, List.mem_dedup,
      List.mem_append, List.mem_append]
    exact or_comm
  · intro k
    by_cases h1 : k ∈ dictKeys d1 ∨ k ∈ dictKeys d2
    · have h2 : k ∈ dictKeys d2 ∨ k ∈ dictKeys d1 := h1.symm
      rw [dictGet_merge, dictGet_merge, if_pos h1, if_pos h2, Nat.add_comm]
    · have h2 : ¬(k ∈ dictKeys d2 ∨ k ∈ dictKeys d1) := fun hc => h1 hc.symm
      rw [dictGet_merge, dictGet_merge, if_neg h1, if_neg h2]

lemma sum_map_count_ind (L : List String) (f : String → Nat) (x : String) :
    (L.map (fun w => f w + if w = x then 1 else 0)).sum =
      (L.map f).sum + L.count x := by
  induction L with
  | nil => simp
  | cons y ys ih =>
      by_cases hyx : y = x
      · subst hyx
        simp [List.count_cons, ih]
        omega
      · simp [List.count_cons, hyx, ih]
        omega

lemma sum_dedup_count (l : List String) :
    (l.dedup.map (fun w => l.count w)).sum = l.length := by
  induction l with
  | nil => simp
  | cons x xs ih =>
      have hcount : ∀ w, (x :: xs).count w =
          xs.count w + if w = x then 1 else 0 := by
        intro w
        simp only [List.count_cons]
        by_cases hwx : w = x
        · subst hwx
          simp
        · have hxw : ¬x = w := fun h => hwx h.symm
          simp [hwx, hxw]
      by_cases hx : x ∈ xs
      · rw [List.dedup_cons_of_mem hx]
        calc (xs.dedup.map (fun w => (x :: xs).count w)).sum
            = (xs.dedup.map (fun w => xs.count w + if w = x then 1 else 0)).sum
              := by
                congr 1
                exact List.map_congr_left fun w _ => hcount w
          _ = (xs.dedup.map (fun w => xs.count w)).sum + xs.dedup.count x :=
              sum_map_count_ind xs.dedup (fun w => xs.count w) x
          _ = xs.length + 1 := by
              rw [ih, List.count_eq_one_of_mem (List.nodup_dedup xs)
                (List.mem_dedup.mpr hx)]
          _ = (x :: xs).length := by simp
      · rw [List.dedup_cons_of_not_mem hx]
        have hx' : x ∉ xs.dedup := fun h => hx (List.mem_dedup.mp h)
        have htail : (xs.dedup.map (fun w => (x :: xs).count w)).sum
            = xs.length + xs.dedup.count x := by
          calc (xs.dedup.map (fun w => (x :: xs).count w)).sum
              = (xs.dedup.map
                  (fun w => xs.count w + if w = x then 1 else 0)).sum := by
                congr 1
                exact List.map_congr_left fun w _ => hcount w
            _ = (xs.dedup.map (fun w => xs.count w)).sum + xs.dedup.count x :=
                sum_map_count_ind xs.dedup (fun w => xs.count w) x
            _ = xs.length + xs.dedup.count x := by rw [ih]
        have hcx : xs.dedup.count x = 0 := List.count_eq_zero_of_not_mem hx'
        have hxz : xs.count x = 0 := List.count_eq_zero_of_not_mem hx
        have hhead : (x :: xs).count x = xs.count x + 1 := by
          simp [List.count_cons]
        simp only [List.map_cons, List.sum_cons, htail, hcx, hhead, hxz,
          List.length_cons]
        omega

/-- The dict comprehension of `count_word_occurrences`, with the `let`
unfolded. -/
lemma count_word_occurrences_eq (text : String) :
    count_word_occurrences text =
      (pySplit text).dedup.map
        (fun word => (word, (pySplit text).count word)) := rfl

/-- C10 -- For every input text, `count_word_occurrences` returns a dict
whose key set is exactly the set of distinct whitespace-separated tokens
of the text, whose value at each token is its occurrence count (hence at
least 1), and whose values sum to the total token count of the text. -/
theorem count_word_occurrences_spec (text : String) :
    (∀ w, w ∈ dictKeys (count_word_occurrences text) ↔ w ∈ pySplit text) ∧
    (∀ w, w ∈ pySplit text →
      dictGet (count_word_occurrences text) w = (pySplit text).count w ∧
      1 ≤ dictGet (count_word_occurrences text) w) ∧
    ((count_word_occurrences text).map Prod.snd).sum =
      (pySplit text).length := by
  refine ⟨?_, ?_, ?_⟩
  · intro w
    rw [count_word_occurrences_eq, dictKeys, List.map_map]
    simp [Function.comp, List.mem_dedup]
  · intro w hw
    have hwd : w ∈ (pySplit text).dedup := List.mem_dedup.mpr hw
    have hl := lookup_map_self
      (fun word => (pySplit text).count word) _ w hwd
    have hget : dictGet (count_word_occurrences text) w =
        (pySplit text).count w := by
      rw [count_word_occurrences_eq, dictGet, hl]
      rfl
    refine ⟨hget, ?_⟩
    rw [hget]
    exact List.count_pos_iff.mpr hw
  · rw [count_word_occurrences_eq, List.map_map]
    have hmap : (Prod.snd ∘ fun word => (word, (pySplit text).count word)) =
        fun word => (pySplit text).count word := rfl
    rw [hmap]
    exact sum_dedup_count (pySplit text)

/-- C10 witness: the dict of the concrete text `"a b a"`. -/
theorem count_word_occurrences_spec_witness :
    ("a" : String) ∈ pySplit "a b a" ∧
    dictGet (count_word_occurrences "a b a") "a" =
      (pySplit "a b a").count "a" ∧
    1 ≤ dictGet (count_word_occurrences "a b a") "a" ∧
    ((count_word_occurrences "a b a").map Prod.snd).sum =
      (pySplit "a b a").length := by
  have hmem : ("a" : String) ∈ pySplit "a b a" := by decide
  obtain ⟨h1, h2⟩ := (count_word_occurrences_spec "a b a").2.1 "a" hmem
  exact ⟨hmem, h1, h2, (count_word_occurrences_spec "a b a").2.2⟩

end Asgmt2
